import Mathlib

/-!
# Verification of the PySudoku solving engine (`src/solver.py`)

This file gives a shallow embedding of the solving engine of the PySudoku
repository and proves the specification claims about it.

The Python engine works on a mutable 9×9 list-of-lists of ints (0 = empty,
1–9 = filled) together with an auxiliary 9×9 structure `puzzle_pos` of
candidate lists.  Here a grid is embedded as a total function
`Fin 9 → Fin 9 → Nat` and in-place mutation becomes explicit state passing:
each Python function that mutates its arguments is embedded as a pure
function returning the new state next to its boolean result.

The two recursions of the source — the `while True` deduction loop of
`solve_puzzle` and the recursive `backtracking` search — are embedded with an
explicit structural fuel parameter.  Fuel `82` is enough for both, because
every productive step fills one previously-empty cell and a grid has at most
81 empty cells; the fuel-irrelevance theorems below prove that `82` (indeed
any fuel larger than the number of empty cells) computes the fixed point, so
the fuelled functions agree with the unbounded Python recursion.
-/

set_option maxRecDepth 10000

namespace PySudoku

/-- A 9×9 Sudoku grid; entry 0 means the cell is empty. -/
abbrev Grid := Fin 9 → Fin 9 → Nat

/-- The auxiliary `puzzle_pos` structure: one list of candidate values per
cell. -/
abbrev Pos := Fin 9 → Fin 9 → List Nat

/-- Writing one grid cell (Python `puzzle[r][c] = v`). -/
def setCell (g : Grid) (r c : Fin 9) (v : Nat) : Grid :=
  fun r' c' => if r' = r ∧ c' = c then v else g r' c'

/-- Writing one candidate entry (Python `puzzle_pos[r][c] = l`). -/
def setPos (pos : Pos) (r c : Fin 9) (l : List Nat) : Pos :=
  fun r' c' => if r' = r ∧ c' = c then l else pos r' c'

/-- All 81 cells in row-major order, the iteration order of the Python
double loops `for row in range(9): for col in range(9)`. -/
def allCells : List (Fin 9 × Fin 9) :=
  (List.finRange 9).flatMap fun r => (List.finRange 9).map fun c => (r, c)

/-- The value list `[1, ..., 9]` (Python `range(1, 10)`). -/
def nums19 : List Nat := List.range' 1 9

/-- Function `check_puzzle_solved` from `src/solver.py`: the puzzle is "solved" when
no zeros remain.  (It checks fullness only, not the Sudoku constraints.) -/
def check_puzzle_solved (g : Grid) : Bool :=
  (List.finRange 9).all fun r => (List.finRange 9).all fun c => g r c != 0

/-- Cell `x0 + i` of the 3-cell band of the box containing `x`
(Python `x0 = (x // 3) * 3`, scanning `x0 + i` for `i in range(3)`). -/
def boxIdx (x : Fin 9) (i : Fin 3) : Fin 9 :=
  ⟨x.val / 3 * 3 + i.val, by have := x.isLt; have := i.isLt; omega⟩

/-- Function `is_possible` from `src/solver.py`: value `num` may be placed at `(x, y)`
iff the cell is empty and `num` occurs nowhere in row `x`, column `y`, or the
3×3 box with origin `(x/3*3, y/3*3)`. -/
def is_possible (g : Grid) (x y : Fin 9) (num : Nat) : Bool :=
  if g x y ≠ 0 then false
  else if (List.finRange 9).any (fun col => g x col == num) then false
  else if (List.finRange 9).any (fun row => g row y == num) then false
  else if (List.finRange 3).any
      (fun i => (List.finRange 3).any fun j => g (boxIdx x i) (boxIdx y j) == num) then false
  else true

/-- The candidate list of a cell, Python
`[num for num in range(1, 10) if is_possible(puzzle, row, col, num)]`. -/
def candidatesList (g : Grid) (r c : Fin 9) : List Nat :=
  nums19.filter fun num => is_possible g r c num

/-- Scanning loop of `row_col_square_single_algo`: walk the remaining cells;
for a filled cell clear its candidate entry; for an empty cell whose
candidate list is a singleton, write that value and stop with `True`;
otherwise record the candidate list and keep going. -/
def singleAux (g : Grid) : List (Fin 9 × Fin 9) → Pos → Bool × Grid × Pos
  | [], pos => (false, g, pos)
  | p :: rest, pos =>
    if g p.1 p.2 ≠ 0 then singleAux g rest (setPos pos p.1 p.2 [])
    else if (candidatesList g p.1 p.2).length = 1 then
      (true, setCell g p.1 p.2 ((candidatesList g p.1 p.2).headD 0), pos)
    else singleAux g rest (setPos pos p.1 p.2 (candidatesList g p.1 p.2))

/-- Function `row_col_square_single_algo` from `src/solver.py` (the naked-single
rule).  The grid is only written at the moment the function returns `True`,
so the whole scan reads one fixed grid `g`. -/
def row_col_square_single_algo (g : Grid) (pos : Pos) : Bool × Grid × Pos :=
  singleAux g allCells pos

/-- Positions of `num` inside row `r` according to `puzzle_pos` (Python
`[(row, col) for col in range(9) if num in puzzle_pos[row][col]]`). -/
def rowPositions (pos : Pos) (r : Fin 9) (num : Nat) : List (Fin 9 × Fin 9) :=
  ((List.finRange 9).filter fun c => num ∈ pos r c).map fun c => (r, c)

/-- Positions of `num` inside column `c` according to `puzzle_pos`. -/
def colPositions (pos : Pos) (c : Fin 9) (num : Nat) : List (Fin 9 × Fin 9) :=
  ((List.finRange 9).filter fun r => num ∈ pos r c).map fun r => (r, c)

/-- Cell `(3*b₁ + i, 3*b₂ + j)` of the 3×3 box with box coordinates
`(b₁, b₂)` (Python `x in (0, 3, 6)` is `x = 3*b₁`). -/
def boxCell (b i : Fin 3) : Fin 9 :=
  ⟨3 * b.val + i.val, by have := b.isLt; have := i.isLt; omega⟩

/-- The box-row of the `k`-th cell (row-major) of a box. -/
def fin3div (k : Fin 9) : Fin 3 := ⟨k.val / 3, by have := k.isLt; omega⟩

/-- The box-column of the `k`-th cell (row-major) of a box. -/
def fin3mod (k : Fin 9) : Fin 3 := ⟨k.val % 3, by have := k.isLt; omega⟩

/-- The row-major index of a cell of a box. -/
def pairK (p : Fin 3 × Fin 3) : Fin 9 :=
  ⟨3 * p.1.val + p.2.val, by have := p.1.isLt; have := p.2.isLt; omega⟩

/-- Positions of `num` inside the box `(b₁, b₂)` according to `puzzle_pos`,
scanned in the Python order `for i in range(3): for j in range(3)`. -/
def squarePositions (pos : Pos) (b₁ b₂ : Fin 3) (num : Nat) : List (Fin 9 × Fin 9) :=
  ((List.finRange 3).flatMap fun i =>
      (List.finRange 3).map fun j => (boxCell b₁ i, boxCell b₂ j)).filter
    fun p => num ∈ pos p.1 p.2

/-- The `(positions, num)` pairs examined by the row phase of
`row_col_square_only_algo`, in scan order: rows ascending, values 1–9
ascending inside each row. -/
def rowTrials (pos : Pos) : List (List (Fin 9 × Fin 9) × Nat) :=
  (List.finRange 9).flatMap fun r => nums19.map fun num => (rowPositions pos r num, num)

/-- The `(positions, num)` pairs examined by the column phase. -/
def colTrials (pos : Pos) : List (List (Fin 9 × Fin 9) × Nat) :=
  (List.finRange 9).flatMap fun c => nums19.map fun num => (colPositions pos c num, num)

/-- The `(positions, num)` pairs examined by the box phase, boxes in the
Python order `x` outer over `(0,3,6)`, `y` inner. -/
def squareTrials (pos : Pos) : List (List (Fin 9 × Fin 9) × Nat) :=
  (List.finRange 3).flatMap fun b₁ =>
    (List.finRange 3).flatMap fun b₂ =>
      nums19.map fun num => (squarePositions pos b₁ b₂ num, num)

/-- Every `(positions, num)` pair examined by `row_col_square_only_algo`, in
its exact scan order: all rows, then all columns, then all boxes.
`puzzle_pos` is never mutated by the Python function, so precomputing the
list is equivalent to computing each `positions` on demand. -/
def trialList (pos : Pos) : List (List (Fin 9 × Fin 9) × Nat) :=
  rowTrials pos ++ colTrials pos ++ squareTrials pos

/-- Scanning loop of `row_col_square_only_algo`: at the first trial whose
position list has exactly one element, write the value into that cell and
stop with `True`; return `False` after the last trial. -/
def onlyAux (g : Grid) : List (List (Fin 9 × Fin 9) × Nat) → Bool × Grid
  | [] => (false, g)
  | (ps, num) :: rest =>
    if ps.length = 1 then
      (true, setCell g (ps.headD (0, 0)).1 (ps.headD (0, 0)).2 num)
    else onlyAux g rest

/-- Function `row_col_square_only_algo` from `src/solver.py` (the unique-position
rule). -/
def row_col_square_only_algo (g : Grid) (pos : Pos) : Bool × Grid :=
  onlyAux g (trialList pos)

/-- Function `find_empty` from `src/solver.py`: first cell with value 0 in row-major
order. -/
def find_empty (g : Grid) : Option (Fin 9 × Fin 9) :=
  allCells.find? fun p => g p.1 p.2 == 0

/-- The `for num in range(1, 10)` loop body of `backtracking`, abstracted
over the recursive call `bt`: try each remaining value at cell `(r, c)`;
a legal value is written, the search recurses, and on failure the cell is
reset to 0 before the next value. -/
def tryNumsA (bt : Grid → Bool × Grid) (r c : Fin 9) : List Nat → Grid → Bool × Grid
  | [], g => (false, g)
  | num :: rest, g =>
    if is_possible g r c num then
      match bt (setCell g r c num) with
      | (true, g2) => (true, g2)
      | (false, g2) => tryNumsA bt r c rest (setCell g2 r c 0)
    else tryNumsA bt r c rest g

/-- Function `backtracking` from `src/solver.py` with explicit fuel: if no empty cell
remains the grid is complete (success); otherwise run the value loop on the
first empty cell.  Fuel 0 is never reached when the fuel exceeds the number
of empty cells (`backtrackingF_fuel_irrel` below). -/
def backtrackingF : Nat → Grid → Bool × Grid
  | 0, g => (false, g)
  | f + 1, g =>
    match find_empty g with
    | none => (true, g)
    | some p => tryNumsA (backtrackingF f) p.1 p.2 nums19 g

/-- Function `backtracking` from `src/solver.py`.  A 9×9 grid has at most 81 empty
cells, so fuel 82 always computes the result of the unbounded recursion. -/
def backtracking (g : Grid) : Bool × Grid := backtrackingF 82 g

/-- The `while True` loop of `solve_puzzle` with explicit fuel: run the
naked-single rule; on progress restart; otherwise run the unique-position
rule on the refreshed candidates; on progress restart; otherwise break. -/
def solveLoopF : Nat → Grid → Pos → Grid × Pos
  | 0, g, pos => (g, pos)
  | f + 1, g, pos =>
    match row_col_square_single_algo g pos with
    | (true, g1, pos1) => solveLoopF f g1 pos1
    | (false, g1, pos1) =>
      match row_col_square_only_algo g1 pos1 with
      | (true, g2) => solveLoopF f g2 pos1
      | (false, g2) => (g2, pos1)

/-- Function `solve_puzzle` from `src/solver.py`: run the deduction loop to
quiescence (fuel 82 suffices, `solveLoopF_fuel_irrel` below), then report
success if the grid is full, otherwise fall back to backtracking. -/
def solve_puzzle (g : Grid) (pos : Pos) : Bool × Grid × Pos :=
  match solveLoopF 82 g pos with
  | (g1, pos1) =>
    if check_puzzle_solved g1 then (true, g1, pos1)
    else
      match backtracking g1 with
      | (b, g2) => (b, g2, pos1)

/-! ## Specification predicates -/

/-- No empty cell remains. -/
def NoEmpty (g : Grid) : Prop := ∀ r c, g r c ≠ 0

/-- All entries lie in `[0, 9]` (the lower bound is inherent to `Nat`). -/
def validEntries (g : Grid) : Prop := ∀ r c, g r c ≤ 9

/-- Two indices fall in the same band of three (same box row / box column). -/
def sameBox (a b : Fin 9) : Prop := a.val / 3 = b.val / 3

/-- No value occurs twice in any row. -/
def RowOk (g : Grid) : Prop :=
  ∀ (r c₁ c₂ : Fin 9), g r c₁ ≠ 0 → g r c₁ = g r c₂ → c₁ = c₂

/-- No value occurs twice in any column. -/
def ColOk (g : Grid) : Prop :=
  ∀ (c r₁ r₂ : Fin 9), g r₁ c ≠ 0 → g r₁ c = g r₂ c → r₁ = r₂

/-- No value occurs twice in any 3×3 box. -/
def BoxOk (g : Grid) : Prop :=
  ∀ (x₁ y₁ x₂ y₂ : Fin 9), sameBox x₁ x₂ → sameBox y₁ y₂ →
    g x₁ y₁ ≠ 0 → g x₁ y₁ = g x₂ y₂ → x₁ = x₂ ∧ y₁ = y₂

/-- The filled cells respect row, column and box uniqueness. -/
def Consistent (g : Grid) : Prop := RowOk g ∧ ColOk g ∧ BoxOk g

/-- Every row contains every value 1–9 exactly once. -/
def RowComplete (g : Grid) : Prop :=
  ∀ (r : Fin 9) (v : Nat), 1 ≤ v → v ≤ 9 → ∃! c : Fin 9, g r c = v

/-- Every column contains every value 1–9 exactly once. -/
def ColComplete (g : Grid) : Prop :=
  ∀ (c : Fin 9) (v : Nat), 1 ≤ v → v ≤ 9 → ∃! r : Fin 9, g r c = v

/-- Every 3×3 box contains every value 1–9 exactly once. -/
def BoxComplete (g : Grid) : Prop :=
  ∀ (b₁ b₂ : Fin 3) (v : Nat), 1 ≤ v → v ≤ 9 →
    ∃! p : Fin 3 × Fin 3, g (boxCell b₁ p.1) (boxCell b₂ p.2) = v

/-- A fully solved grid: full, and every unit contains 1–9 exactly once. -/
def FullySolved (g : Grid) : Prop :=
  NoEmpty g ∧ RowComplete g ∧ ColComplete g ∧ BoxComplete g

/-- The freshness contract of the candidate structure: filled cells carry
`[]`, empty cells carry exactly the currently legal values. -/
def FreshPos (g : Grid) (pos : Pos) : Prop :=
  ∀ r c, pos r c = if g r c ≠ 0 then [] else candidatesList g r c

instance (g : Grid) : Decidable (NoEmpty g) := by unfold NoEmpty; infer_instance

instance (g : Grid) : Decidable (validEntries g) := by unfold validEntries; infer_instance

instance (a b : Fin 9) : Decidable (sameBox a b) := by unfold sameBox; infer_instance

instance (g : Grid) : Decidable (RowOk g) := by unfold RowOk; infer_instance

instance (g : Grid) : Decidable (ColOk g) := by unfold ColOk; infer_instance

instance (g : Grid) : Decidable (BoxOk g) := by unfold BoxOk; infer_instance

instance (g : Grid) : Decidable (Consistent g) := by unfold Consistent; infer_instance

instance (g : Grid) (pos : Pos) : Decidable (FreshPos g pos) := by
  unfold FreshPos; infer_instance

/-- The set of empty cells. -/
def emptyCells (g : Grid) : Finset (Fin 9 × Fin 9) :=
  Finset.univ.filter fun p => g p.1 p.2 = 0

/-- The number of empty cells. -/
def numEmpty (g : Grid) : Nat := (emptyCells g).card

/-! ## Concrete grids used as test inputs -/

/-- The all-empty grid. -/
def gEmpty : Grid := fun _ _ => 0

/-- The all-empty candidate structure `puzzle_pos` as created by `main`. -/
def pos0 : Pos := fun _ _ => []

/-- A full grid every cell of which holds 9: full of same-row duplicates. -/
def gNines : Grid := fun _ _ => 9

/-- A valid completed Sudoku grid (rows are shifted copies of `1..9`). -/
def gSolved : Grid := fun r c => (3 * (r.val % 3) + r.val / 3 + c.val) % 9 + 1

/-- A grid on which backtracking fails at once: row 0 is `1..8` followed by
an empty cell, and a 9 below that cell blocks the only remaining value. -/
def gBlocked : Grid := fun r c =>
  if r.val = 0 then (if c.val = 8 then 0 else c.val + 1)
  else if r.val = 1 ∧ c.val = 8 then 9
  else 0

/-- A candidate structure whose only nonempty entry is `[5]` at cell
`(0, 0)`; used to exercise the unique-position scan order. -/
def pos5 : Pos := fun r c => if r.val = 0 ∧ c.val = 0 then [5] else []

/-! ## Basic lemmas -/

theorem setCell_apply (g : Grid) (r c : Fin 9) (v : Nat) (r' c' : Fin 9) :
    setCell g r c v r' c' = if r' = r ∧ c' = c then v else g r' c' := rfl

theorem setCell_same (g : Grid) (r c : Fin 9) (v : Nat) : setCell g r c v r c = v := by
  simp [setCell]

theorem setCell_of_ne (g : Grid) (r c : Fin 9) (v : Nat) {r' c' : Fin 9}
    (h : ¬(r' = r ∧ c' = c)) : setCell g r c v r' c' = g r' c' := by
  simp only [setCell, if_neg h]

theorem setCell_setCell_zero (g : Grid) (r c : Fin 9) (v : Nat) (h : g r c = 0) :
    setCell (setCell g r c v) r c 0 = g := by
  funext r' c'
  by_cases hp : r' = r ∧ c' = c
  · obtain ⟨rfl, rfl⟩ := hp
    simp [setCell, h]
  · simp [setCell, if_neg hp]

theorem mem_allCells (p : Fin 9 × Fin 9) : p ∈ allCells := by
  simp only [allCells, List.mem_flatMap, List.mem_map, List.mem_finRange, true_and]
  exact ⟨p.1, p.2, rfl⟩

theorem mem_nums19 {v : Nat} : v ∈ nums19 ↔ 1 ≤ v ∧ v ≤ 9 := by
  simp only [nums19, List.mem_range'_1]
  omega

/-! ## The constraint checker `is_possible` -/

theorem is_possible_iff (g : Grid) (x y : Fin 9) (num : Nat) :
    is_possible g x y num = true ↔
      g x y = 0 ∧ (∀ c, g x c ≠ num) ∧ (∀ r, g r y ≠ num) ∧
      ∀ (i j : Fin 3), g (boxIdx x i) (boxIdx y j) ≠ num := by
  unfold is_possible
  split_ifs with h1 h2 h3 h4 <;>
    simp_all [List.any_eq_true, List.mem_finRange]

theorem is_possible_empty {g : Grid} {x y : Fin 9} {num : Nat}
    (h : is_possible g x y num = true) : g x y = 0 :=
  ((is_possible_iff g x y num).mp h).1

theorem is_possible_ne_zero {g : Grid} {x y : Fin 9} {num : Nat}
    (h : is_possible g x y num = true) : num ≠ 0 := by
  obtain ⟨h0, hrow, -, -⟩ := (is_possible_iff g x y num).mp h
  intro hn
  exact hrow y (hn ▸ h0)

theorem mem_candidatesList {g : Grid} {r c : Fin 9} {v : Nat} :
    v ∈ candidatesList g r c ↔ (1 ≤ v ∧ v ≤ 9) ∧ is_possible g r c v = true := by
  simp [candidatesList, List.mem_filter, mem_nums19]

/-! ## Consistency is preserved by `is_possible`-guarded writes -/

theorem consistent_setCell {g : Grid} {r c : Fin 9} {v : Nat}
    (hg : Consistent g) (hp : is_possible g r c v = true) :
    Consistent (setCell g r c v) := by
  obtain ⟨hrow, hcol, hbox⟩ := hg
  obtain ⟨hc0, hrowfree, hcolfree, hboxfree⟩ := (is_possible_iff g r c v).mp hp
  refine ⟨?_, ?_, ?_⟩
  · -- rows
    intro r' c₁ c₂ h1 h2
    by_cases e1 : r' = r ∧ c₁ = c <;> by_cases e2 : r' = r ∧ c₂ = c
    · exact e1.2.trans e2.2.symm
    · exfalso
      rw [setCell_apply, if_pos e1] at h2
      rw [setCell_of_ne g r c v e2] at h2
      exact hrowfree c₂ (e1.1 ▸ h2.symm)
    · exfalso
      rw [setCell_of_ne g r c v e1] at h1 h2
      rw [setCell_apply, if_pos e2] at h2
      exact hrowfree c₁ (e2.1 ▸ h2)
    · rw [setCell_of_ne g r c v e1] at h1 h2
      rw [setCell_of_ne g r c v e2] at h2
      exact hrow r' c₁ c₂ h1 h2
  · -- columns
    intro c' r₁ r₂ h1 h2
    by_cases e1 : r₁ = r ∧ c' = c <;> by_cases e2 : r₂ = r ∧ c' = c
    · exact e1.1.trans e2.1.symm
    · exfalso
      rw [setCell_apply, if_pos e1] at h2
      rw [setCell_of_ne g r c v e2] at h2
      exact hcolfree r₂ (e1.2 ▸ h2.symm)
    · exfalso
      rw [setCell_of_ne g r c v e1] at h1 h2
      rw [setCell_apply, if_pos e2] at h2
      exact hcolfree r₁ (e2.2 ▸ h2)
    · rw [setCell_of_ne g r c v e1] at h1 h2
      rw [setCell_of_ne g r c v e2] at h2
      exact hcol c' r₁ r₂ h1 h2
  · -- boxes
    intro x₁ y₁ x₂ y₂ hbx hby h1 h2
    by_cases e1 : x₁ = r ∧ y₁ = c <;> by_cases e2 : x₂ = r ∧ y₂ = c
    · exact ⟨e1.1.trans e2.1.symm, e1.2.trans e2.2.symm⟩
    · exfalso
      rw [setCell_apply, if_pos e1] at h2
      rw [setCell_of_ne g r c v e2] at h2
      have hx2 : x₂ = boxIdx r ⟨x₂.val % 3, by omega⟩ := by
        apply Fin.ext
        show x₂.val = r.val / 3 * 3 + x₂.val % 3
        have hb : x₂.val / 3 = r.val / 3 := by
          have := hbx; rw [e1.1] at this; exact this.symm
        omega
      have hy2 : y₂ = boxIdx c ⟨y₂.val % 3, by omega⟩ := by
        apply Fin.ext
        show y₂.val = c.val / 3 * 3 + y₂.val % 3
        have hb : y₂.val / 3 = c.val / 3 := by
          have := hby; rw [e1.2] at this; exact this.symm
        omega
      exact hboxfree _ _ (by rw [← hx2, ← hy2]; exact h2.symm)
    · exfalso
      rw [setCell_of_ne g r c v e1] at h1 h2
      rw [setCell_apply, if_pos e2] at h2
      have hx1 : x₁ = boxIdx r ⟨x₁.val % 3, by omega⟩ := by
        apply Fin.ext
        show x₁.val = r.val / 3 * 3 + x₁.val % 3
        have hb : x₁.val / 3 = r.val / 3 := by
          have := hbx; rw [e2.1] at this; exact this
        omega
      have hy1 : y₁ = boxIdx c ⟨y₁.val % 3, by omega⟩ := by
        apply Fin.ext
        show y₁.val = c.val / 3 * 3 + y₁.val % 3
        have hb : y₁.val / 3 = c.val / 3 := by
          have := hby; rw [e2.2] at this; exact this
        omega
      exact hboxfree _ _ (by rw [← hx1, ← hy1]; exact h2)
    · rw [setCell_of_ne g r c v e1] at h1 h2
      rw [setCell_of_ne g r c v e2] at h2
      exact hbox x₁ y₁ x₂ y₂ hbx hby h1 h2

/-! ## Counting empty cells -/

theorem mem_emptyCells (g : Grid) (p : Fin 9 × Fin 9) :
    p ∈ emptyCells g ↔ g p.1 p.2 = 0 := by
  simp [emptyCells]

theorem numEmpty_le (g : Grid) : numEmpty g ≤ 81 := by
  calc numEmpty g ≤ Finset.univ.card := Finset.card_filter_le _ _
    _ = 81 := by simp

theorem numEmpty_pos {g : Grid} {r c : Fin 9} (h : g r c = 0) : 0 < numEmpty g :=
  Finset.card_pos.mpr ⟨(r, c), (mem_emptyCells g (r, c)).mpr h⟩

theorem numEmpty_eq_zero {g : Grid} : numEmpty g = 0 ↔ NoEmpty g := by
  unfold numEmpty NoEmpty emptyCells
  rw [Finset.card_eq_zero, Finset.filter_eq_empty_iff]
  constructor
  · intro h r c hc
    exact h (Finset.mem_univ (r, c)) hc
  · intro h p _
    exact h p.1 p.2

theorem numEmpty_setCell_lt {g : Grid} {r c : Fin 9} {v : Nat}
    (h0 : g r c = 0) (hv : v ≠ 0) : numEmpty (setCell g r c v) < numEmpty g := by
  apply Finset.card_lt_card
  constructor
  · intro p hp
    rw [mem_emptyCells _ p] at hp ⊢
    by_cases hpc : p.1 = r ∧ p.2 = c
    · rw [setCell_apply, if_pos hpc] at hp
      exact absurd hp hv
    · rwa [setCell_of_ne g r c v hpc] at hp
  · intro hsub
    have := hsub ((mem_emptyCells g (r, c)).mpr h0)
    rw [mem_emptyCells] at this
    rw [setCell_same] at this
    exact hv this

/-! ## `find_empty` and `check_puzzle_solved` -/

theorem find_empty_some {g : Grid} {p : Fin 9 × Fin 9}
    (h : find_empty g = some p) : g p.1 p.2 = 0 := by
  have := List.find?_some h
  simpa using this

theorem find_empty_none {g : Grid} (h : find_empty g = none) : NoEmpty g := by
  intro r c
  have := List.find?_eq_none.mp h (r, c) (mem_allCells _)
  simpa using this

theorem find_empty_of_pos {g : Grid} (h : 0 < numEmpty g) :
    ∃ p, find_empty g = some p := by
  cases hf : find_empty g with
  | none =>
    exfalso
    have := numEmpty_eq_zero.mpr (find_empty_none hf)
    omega
  | some p => exact ⟨p, rfl⟩

theorem check_puzzle_solved_iff (g : Grid) :
    check_puzzle_solved g = true ↔ NoEmpty g := by
  unfold check_puzzle_solved NoEmpty
  simp [List.all_eq_true, List.mem_finRange]

/-! ## List helpers -/

theorem headD_of_length_one {α : Type _} {l : List α} (h : l.length = 1) (d : α) :
    l = [l.headD d] := by
  obtain ⟨a, rfl⟩ := List.length_eq_one.mp h
  rfl

theorem getD_mem_of_lt {α : Type _} {l : List α} {i : Nat} (h : i < l.length) (d : α) :
    l.getD i d ∈ l := by
  induction l generalizing i with
  | nil => simp at h
  | cons a t ih =>
    cases i with
    | zero => simp
    | succ j =>
      simp only [List.getD_cons_succ]
      exact List.mem_cons_of_mem a (ih (by simpa using h))

/-! ## The naked-single rule -/

theorem singleAux_true {g : Grid} :
    ∀ (l : List (Fin 9 × Fin 9)) (pos : Pos) {g' : Grid} {pos' : Pos},
      singleAux g l pos = (true, g', pos') →
      ∃ (r c : Fin 9) (v : Nat), g r c = 0 ∧ 1 ≤ v ∧ v ≤ 9 ∧
        is_possible g r c v = true ∧ g' = setCell g r c v := by
  intro l
  induction l with
  | nil =>
    intro pos g' pos' h
    simp [singleAux] at h
  | cons p rest ih =>
    intro pos g' pos' h
    unfold singleAux at h
    by_cases hp : g p.1 p.2 ≠ 0
    · rw [if_pos hp] at h
      exact ih _ h
    · rw [if_neg hp] at h
      push_neg at hp
      by_cases hl : (candidatesList g p.1 p.2).length = 1
      · rw [if_pos hl] at h
        have hmem : (candidatesList g p.1 p.2).headD 0 ∈ candidatesList g p.1 p.2 := by
          rw [headD_of_length_one hl 0]
          exact List.mem_cons_self _ _
        obtain ⟨⟨h1le, h9le⟩, hposs⟩ := mem_candidatesList.mp hmem
        have hg' : g' = setCell g p.1 p.2 ((candidatesList g p.1 p.2).headD 0) := by
          have := congrArg (fun q => q.2.1) h
          simpa using this.symm
        exact ⟨p.1, p.2, _, hp, h1le, h9le, hposs, hg'⟩
      · rw [if_neg hl] at h
        exact ih _ h

theorem singleAux_false {g : Grid} :
    ∀ (l : List (Fin 9 × Fin 9)) (pos : Pos) {g' : Grid} {pos' : Pos},
      singleAux g l pos = (false, g', pos') →
      g' = g ∧ ∀ p : Fin 9 × Fin 9,
        (p ∈ l → pos' p.1 p.2 =
          if g p.1 p.2 ≠ 0 then [] else candidatesList g p.1 p.2) ∧
        (p ∉ l → pos' p.1 p.2 = pos p.1 p.2) := by
  intro l
  induction l with
  | nil =>
    intro pos g' pos' h
    unfold singleAux at h
    obtain ⟨rfl, rfl⟩ : g' = g ∧ pos' = pos := by
      have h1 := congrArg (fun q => q.2.1) h
      have h2 := congrArg (fun q => q.2.2) h
      exact ⟨by simpa using h1.symm, by simpa using h2.symm⟩
    exact ⟨rfl, fun p => ⟨fun hp => absurd hp (List.not_mem_nil p), fun _ => rfl⟩⟩
  | cons q rest ih =>
    intro pos g' pos' h
    unfold singleAux at h
    by_cases hq : g q.1 q.2 ≠ 0
    · rw [if_pos hq] at h
      obtain ⟨hg, hpos⟩ := ih _ h
      refine ⟨hg, fun p => ⟨?_, ?_⟩⟩
      · intro hp
        rcases List.mem_cons.mp hp with hp | hp
        · subst hp
          by_cases hpr : p ∈ rest
          · exact (hpos p).1 hpr
          · rw [(hpos p).2 hpr, setPos, if_pos ⟨rfl, rfl⟩, if_pos hq]
        · exact (hpos p).1 hp
      · intro hp
        rw [List.mem_cons] at hp
        push_neg at hp
        rw [(hpos p).2 hp.2, setPos,
          if_neg (by intro ⟨h1, h2⟩; exact hp.1 (Prod.ext h1 h2))]
    · rw [if_neg hq] at h
      push_neg at hq
      by_cases hl : (candidatesList g q.1 q.2).length = 1
      · rw [if_pos hl] at h
        exact absurd (congrArg (fun z => z.1) h) (by simp)
      · rw [if_neg hl] at h
        obtain ⟨hg, hpos⟩ := ih _ h
        refine ⟨hg, fun p => ⟨?_, ?_⟩⟩
        · intro hp
          rcases List.mem_cons.mp hp with hp | hp
          · subst hp
            by_cases hpr : p ∈ rest
            · exact (hpos p).1 hpr
            · rw [(hpos p).2 hpr, setPos, if_pos ⟨rfl, rfl⟩, if_neg (by simp [hq])]
          · exact (hpos p).1 hp
        · intro hp
          rw [List.mem_cons] at hp
          push_neg at hp
          rw [(hpos p).2 hp.2, setPos,
            if_neg (by intro ⟨h1, h2⟩; exact hp.1 (Prod.ext h1 h2))]

/-- A `False` return of the naked-single rule leaves the grid unchanged and
leaves `puzzle_pos` freshly recomputed for the current grid. -/
theorem single_algo_false {g : Grid} {pos : Pos} {g' : Grid} {pos' : Pos}
    (h : row_col_square_single_algo g pos = (false, g', pos')) :
    g' = g ∧ FreshPos g pos' := by
  obtain ⟨hg, hpos⟩ := singleAux_false allCells pos h
  exact ⟨hg, fun r c => (hpos (r, c)).1 (mem_allCells _)⟩

/-- A `True` return of the naked-single rule wrote one legal value into one
previously-empty cell. -/
theorem single_algo_true {g : Grid} {pos : Pos} {g' : Grid} {pos' : Pos}
    (h : row_col_square_single_algo g pos = (true, g', pos')) :
    ∃ (r c : Fin 9) (v : Nat), g r c = 0 ∧ 1 ≤ v ∧ v ≤ 9 ∧
      is_possible g r c v = true ∧ g' = setCell g r c v :=
  singleAux_true allCells pos h

theorem single_algo_full {g : Grid} {pos : Pos} (hfull : NoEmpty g) :
    (row_col_square_single_algo g pos).1 = false := by
  cases hb : (row_col_square_single_algo g pos).1 with
  | false => rfl
  | true =>
    exfalso
    have h : row_col_square_single_algo g pos
        = ((row_col_square_single_algo g pos).1,
           (row_col_square_single_algo g pos).2.1,
           (row_col_square_single_algo g pos).2.2) := by simp
    rw [hb] at h
    obtain ⟨r, c, v, h0, -⟩ := single_algo_true h
    exact hfull r c h0

/-! ## The unique-position rule -/

theorem onlyAux_none {g : Grid} :
    ∀ l : List (List (Fin 9 × Fin 9) × Nat),
      (∀ t ∈ l, t.1.length ≠ 1) → onlyAux g l = (false, g) := by
  intro l
  induction l with
  | nil => intro _; rfl
  | cons t rest ih =>
    intro h
    obtain ⟨ps, num⟩ := t
    unfold onlyAux
    rw [if_neg (h (ps, num) (List.mem_cons_self _ _)), ih]
    intro t' ht'
    exact h t' (List.mem_cons_of_mem _ ht')

theorem onlyAux_at_first {g : Grid} :
    ∀ (l : List (List (Fin 9 × Fin 9) × Nat)) (i : Nat), i < l.length →
      (l.getD i ([], 0)).1.length = 1 →
      (∀ j, j < i → (l.getD j ([], 0)).1.length ≠ 1) →
      onlyAux g l =
        (true, setCell g ((l.getD i ([], 0)).1.headD (0, 0)).1
          ((l.getD i ([], 0)).1.headD (0, 0)).2 (l.getD i ([], 0)).2) := by
  intro l
  induction l with
  | nil => intro i hi; simp at hi
  | cons t rest ih =>
    intro i hi h1 hfirst
    obtain ⟨ps, num⟩ := t
    cases i with
    | zero =>
      simp only [List.getD_cons_zero] at h1 ⊢
      unfold onlyAux
      rw [if_pos h1]
    | succ j =>
      simp only [List.getD_cons_succ] at h1 ⊢
      have h0 : ps.length ≠ 1 := by
        have := hfirst 0 (Nat.succ_pos j)
        simpa using this
      unfold onlyAux
      rw [if_neg h0]
      exact ih j (by simpa using hi) h1 fun k hk => by
        have := hfirst (k + 1) (by omega)
        simpa using this

theorem onlyAux_true_char {g : Grid} :
    ∀ (l : List (List (Fin 9 × Fin 9) × Nat)) {g' : Grid},
      onlyAux g l = (true, g') →
      ∃ i, i < l.length ∧ (l.getD i ([], 0)).1.length = 1 ∧
        g' = setCell g ((l.getD i ([], 0)).1.headD (0, 0)).1
          ((l.getD i ([], 0)).1.headD (0, 0)).2 (l.getD i ([], 0)).2 := by
  intro l
  induction l with
  | nil =>
    intro g' h
    simp [onlyAux] at h
  | cons t rest ih =>
    intro g' h
    obtain ⟨ps, num⟩ := t
    unfold onlyAux at h
    by_cases h1 : ps.length = 1
    · rw [if_pos h1] at h
      refine ⟨0, by simp, by simpa using h1, ?_⟩
      have := congrArg (fun q => q.2) h
      simpa using this.symm
    · rw [if_neg h1] at h
      obtain ⟨i, hi, hlen, hg⟩ := ih h
      exact ⟨i + 1, by simpa using hi, by simpa using hlen, by simpa using hg⟩

theorem onlyAux_false {g : Grid} :
    ∀ (l : List (List (Fin 9 × Fin 9) × Nat)) {g' : Grid},
      onlyAux g l = (false, g') → g' = g := by
  intro l
  induction l with
  | nil =>
    intro g' h
    have := congrArg (fun q => q.2) h
    simpa using this.symm
  | cons t rest ih =>
    intro g' h
    obtain ⟨ps, num⟩ := t
    unfold onlyAux at h
    by_cases h1 : ps.length = 1
    · rw [if_pos h1] at h
      exact absurd (congrArg (fun q => q.1) h) (by simp)
    · rw [if_neg h1] at h
      exact ih h

/-- Every position recorded in a trial is a cell whose candidate entry
contains the trial's value, and the value lies in 1–9. -/
theorem trialList_mem_spec {pos : Pos} {t : List (Fin 9 × Fin 9) × Nat}
    (ht : t ∈ trialList pos) :
    (∀ p ∈ t.1, t.2 ∈ pos p.1 p.2) ∧ 1 ≤ t.2 ∧ t.2 ≤ 9 := by
  unfold trialList at ht
  rw [List.mem_append, List.mem_append] at ht
  rcases ht with (ht | ht) | ht
  · unfold rowTrials at ht
    simp only [List.mem_flatMap, List.mem_map, List.mem_finRange, true_and] at ht
    obtain ⟨r, num, hnum, rfl⟩ := ht
    refine ⟨?_, mem_nums19.mp hnum⟩
    intro p hp
    unfold rowPositions at hp
    simp only [List.mem_map, List.mem_filter, List.mem_finRange, true_and] at hp
    obtain ⟨c, hc, rfl⟩ := hp
    exact of_decide_eq_true hc
  · unfold colTrials at ht
    simp only [List.mem_flatMap, List.mem_map, List.mem_finRange, true_and] at ht
    obtain ⟨c, num, hnum, rfl⟩ := ht
    refine ⟨?_, mem_nums19.mp hnum⟩
    intro p hp
    unfold colPositions at hp
    simp only [List.mem_map, List.mem_filter, List.mem_finRange, true_and] at hp
    obtain ⟨r, hr, rfl⟩ := hp
    exact of_decide_eq_true hr
  · unfold squareTrials at ht
    simp only [List.mem_flatMap, List.mem_map, List.mem_finRange, true_and] at ht
    obtain ⟨b₁, b₂, num, hnum, rfl⟩ := ht
    refine ⟨?_, mem_nums19.mp hnum⟩
    intro p hp
    unfold squarePositions at hp
    rw [List.mem_filter] at hp
    exact of_decide_eq_true hp.2

/-- A `True` return of the unique-position rule (run on fresh candidates)
wrote one legal value into one previously-empty cell. -/
theorem only_algo_true {g : Grid} {pos : Pos} {g' : Grid}
    (hfresh : FreshPos g pos)
    (h : row_col_square_only_algo g pos = (true, g')) :
    ∃ (r c : Fin 9) (v : Nat), g r c = 0 ∧ 1 ≤ v ∧ v ≤ 9 ∧
      is_possible g r c v = true ∧ g' = setCell g r c v := by
  obtain ⟨i, hi, hlen, hg⟩ := onlyAux_true_char (trialList pos) h
  set t := (trialList pos).getD i ([], 0) with ht
  have htl : t ∈ trialList pos := getD_mem_of_lt hi ([], 0)
  have hhead : t.1.headD (0, 0) ∈ t.1 := by
    rw [headD_of_length_one hlen (0, 0)]
    exact List.mem_cons_self _ _
  obtain ⟨hmem, h1, h9⟩ := trialList_mem_spec htl
  have hpos := hmem _ hhead
  rw [hfresh] at hpos
  by_cases hc : g (t.1.headD (0, 0)).1 (t.1.headD (0, 0)).2 ≠ 0
  · rw [if_pos hc] at hpos
    exact absurd hpos (List.not_mem_nil _)
  · rw [if_neg hc] at hpos
    push_neg at hc
    obtain ⟨-, hposs⟩ := mem_candidatesList.mp hpos
    exact ⟨(t.1.headD (0, 0)).1, (t.1.headD (0, 0)).2, t.2, hc, h1, h9, hposs, hg⟩

/-- A `False` return of the unique-position rule leaves the grid unchanged. -/
theorem only_algo_false {g : Grid} {pos : Pos} {g' : Grid}
    (h : row_col_square_only_algo g pos = (false, g')) : g' = g :=
  onlyAux_false (trialList pos) h

/-- On fresh candidates for a full grid every candidate entry is `[]`, so the
unique-position rule finds nothing. -/
theorem only_algo_full {g : Grid} {pos : Pos}
    (hfresh : FreshPos g pos) (hfull : NoEmpty g) :
    row_col_square_only_algo g pos = (false, g) := by
  apply onlyAux_none
  intro t ht
  obtain ⟨hmem, h1, -⟩ := trialList_mem_spec ht
  intro hlen
  have hhead : t.1.headD (0, 0) ∈ t.1 := by
    rw [headD_of_length_one hlen (0, 0)]
    exact List.mem_cons_self _ _
  have hpos := hmem _ hhead
  rw [hfresh, if_pos (hfull _ _)] at hpos
  exact List.not_mem_nil _ hpos

/-! ## Backtracking: restoration, frame, fullness, preservation -/

theorem tryNumsA_restore {bt : Grid → Bool × Grid}
    (hbt : ∀ g, (bt g).1 = false → (bt g).2 = g) (r c : Fin 9) :
    ∀ (nums : List Nat) (g : Grid), g r c = 0 →
      (tryNumsA bt r c nums g).1 = false → (tryNumsA bt r c nums g).2 = g := by
  intro nums
  induction nums with
  | nil => intro g _ _; rfl
  | cons num rest ih =>
    intro g h0 hfalse
    unfold tryNumsA at hfalse ⊢
    by_cases hp : is_possible g r c num = true
    · rw [if_pos hp] at hfalse ⊢
      cases hbtres : bt (setCell g r c num) with
      | mk b g2 =>
        rw [hbtres] at hfalse
        cases b with
        | true => exact Bool.noConfusion hfalse
        | false =>
          have hg2 : g2 = setCell g r c num := by
            have := hbt (setCell g r c num) (by rw [hbtres])
            rwa [hbtres] at this
          have hreset : setCell g2 r c 0 = g := by
            rw [hg2]; exact setCell_setCell_zero g r c num h0
          show (tryNumsA bt r c rest (setCell g2 r c 0)).2 = g
          have hfalse2 : (tryNumsA bt r c rest (setCell g2 r c 0)).1 = false := hfalse
          rw [hreset] at hfalse2 ⊢
          exact ih g h0 hfalse2
    · rw [if_neg hp] at hfalse ⊢
      exact ih g h0 hfalse

theorem backtrackingF_restore :
    ∀ (f : Nat) (g : Grid), (backtrackingF f g).1 = false →
      (backtrackingF f g).2 = g := by
  intro f
  induction f with
  | zero => intro g _; rfl
  | succ f ih =>
    intro g hfalse
    unfold backtrackingF at hfalse ⊢
    cases hfe : find_empty g with
    | none => rfl
    | some p =>
      rw [hfe] at hfalse
      exact tryNumsA_restore ih p.1 p.2 nums19 g (find_empty_some hfe) hfalse

theorem tryNumsA_frame {bt : Grid → Bool × Grid}
    (hbt : ∀ g r' c', g r' c' ≠ 0 → (bt g).2 r' c' = g r' c') (r c : Fin 9) :
    ∀ (nums : List Nat) (g : Grid), g r c = 0 →
      ∀ r' c', g r' c' ≠ 0 → (tryNumsA bt r c nums g).2 r' c' = g r' c' := by
  intro nums
  induction nums with
  | nil => intro g _ r' c' _; rfl
  | cons num rest ih =>
    intro g h0 r' c' hnz
    have hne : ¬(r' = r ∧ c' = c) := by
      intro he
      rw [he.1, he.2] at hnz
      exact hnz h0
    unfold tryNumsA
    by_cases hp : is_possible g r c num = true
    · rw [if_pos hp]
      cases hbtres : bt (setCell g r c num) with
      | mk b g2 =>
        have hset : setCell g r c num r' c' = g r' c' := setCell_of_ne g r c num hne
        have hg2 : g2 r' c' = g r' c' := by
          have := hbt (setCell g r c num) r' c' (by rw [hset]; exact hnz)
          rw [hbtres] at this
          simpa [hset] using this
        cases b with
        | true => exact hg2
        | false =>
          show (tryNumsA bt r c rest (setCell g2 r c 0)).2 r' c' = g r' c'
          have hreset : setCell g2 r c 0 r' c' = g r' c' := by
            rw [setCell_of_ne g2 r c 0 hne]; exact hg2
          rw [ih (setCell g2 r c 0) (setCell_same g2 r c 0) r' c'
            (by rw [hreset]; exact hnz), hreset]
    · rw [if_neg hp]
      exact ih g h0 r' c' hnz

theorem backtrackingF_frame :
    ∀ (f : Nat) (g : Grid) (r' c' : Fin 9), g r' c' ≠ 0 →
      (backtrackingF f g).2 r' c' = g r' c' := by
  intro f
  induction f with
  | zero => intro g r' c' _; rfl
  | succ f ih =>
    intro g r' c' hnz
    unfold backtrackingF
    cases hfe : find_empty g with
    | none => rfl
    | some p =>
      exact tryNumsA_frame (fun g r' c' => ih g r' c') p.1 p.2 nums19 g
        (find_empty_some hfe) r' c' hnz

theorem tryNumsA_full {bt : Grid → Bool × Grid}
    (hbt : ∀ g, (bt g).1 = true → NoEmpty (bt g).2) (r c : Fin 9) :
    ∀ (nums : List Nat) (g : Grid),
      (tryNumsA bt r c nums g).1 = true → NoEmpty (tryNumsA bt r c nums g).2 := by
  intro nums
  induction nums with
  | nil => intro g h; exact Bool.noConfusion h
  | cons num rest ih =>
    intro g htrue
    unfold tryNumsA at htrue ⊢
    by_cases hp : is_possible g r c num = true
    · rw [if_pos hp] at htrue ⊢
      cases hbtres : bt (setCell g r c num) with
      | mk b g2 =>
        rw [hbtres] at htrue
        cases b with
        | true =>
          show NoEmpty g2
          have := hbt (setCell g r c num)
          rw [hbtres] at this
          exact this rfl
        | false => exact ih _ htrue
    · rw [if_neg hp] at htrue ⊢
      exact ih g htrue

theorem backtrackingF_full :
    ∀ (f : Nat) (g : Grid), (backtrackingF f g).1 = true →
      NoEmpty (backtrackingF f g).2 := by
  intro f
  induction f with
  | zero => intro g h; exact Bool.noConfusion h
  | succ f ih =>
    intro g htrue
    unfold backtrackingF at htrue ⊢
    cases hfe : find_empty g with
    | none => exact find_empty_none hfe
    | some p =>
      rw [hfe] at htrue
      exact tryNumsA_full ih p.1 p.2 nums19 g htrue

/-- Generic invariant preservation along the value loop: any property closed
under legal (`is_possible`-guarded) writes of values 1–9 is preserved. -/
theorem tryNumsA_preserves (P : Grid → Prop) {bt : Grid → Bool × Grid}
    (hbt_res : ∀ g, (bt g).1 = false → (bt g).2 = g)
    (hbt_pres : ∀ g, P g → P (bt g).2)
    (hwrite : ∀ (g : Grid) (r c : Fin 9) (v : Nat), 1 ≤ v → v ≤ 9 →
      is_possible g r c v = true → P g → P (setCell g r c v))
    (r c : Fin 9) :
    ∀ (nums : List Nat) (g : Grid), (∀ v ∈ nums, 1 ≤ v ∧ v ≤ 9) →
      g r c = 0 → P g → P (tryNumsA bt r c nums g).2 := by
  intro nums
  induction nums with
  | nil => intro g _ _ hP; exact hP
  | cons num rest ih =>
    intro g hnums h0 hP
    unfold tryNumsA
    by_cases hp : is_possible g r c num = true
    · rw [if_pos hp]
      obtain ⟨h1, h9⟩ := hnums num (List.mem_cons_self _ _)
      have hP1 : P (setCell g r c num) := hwrite g r c num h1 h9 hp hP
      cases hbtres : bt (setCell g r c num) with
      | mk b g2 =>
        have hPg2 : P g2 := by
          have := hbt_pres (setCell g r c num) hP1
          rwa [hbtres] at this
        cases b with
        | true => exact hPg2
        | false =>
          show P (tryNumsA bt r c rest (setCell g2 r c 0)).2
          have hg2 : g2 = setCell g r c num := by
            have := hbt_res (setCell g r c num) (by rw [hbtres])
            rwa [hbtres] at this
          have hreset : setCell g2 r c 0 = g := by
            rw [hg2]; exact setCell_setCell_zero g r c num h0
          rw [hreset]
          exact ih g (fun v hv => hnums v (List.mem_cons_of_mem _ hv)) h0 hP
    · rw [if_neg hp]
      exact ih g (fun v hv => hnums v (List.mem_cons_of_mem _ hv)) h0 hP

theorem backtrackingF_preserves (P : Grid → Prop)
    (hwrite : ∀ (g : Grid) (r c : Fin 9) (v : Nat), 1 ≤ v → v ≤ 9 →
      is_possible g r c v = true → P g → P (setCell g r c v)) :
    ∀ (f : Nat) (g : Grid), P g → P (backtrackingF f g).2 := by
  intro f
  induction f with
  | zero => intro g hP; exact hP
  | succ f ih =>
    intro g hP
    unfold backtrackingF
    cases hfe : find_empty g with
    | none => exact hP
    | some p =>
      exact tryNumsA_preserves P (backtrackingF_restore f) ih hwrite p.1 p.2
        nums19 g (fun v hv => mem_nums19.mp hv) (find_empty_some hfe) hP

/-! ## Fuel irrelevance: recursion depth is bounded by the number of
empty cells -/

theorem backtrackingF_fuel_irrel :
    ∀ (n : Nat) (g : Grid) (f f' : Nat), numEmpty g ≤ n →
      numEmpty g < f → numEmpty g < f' →
      backtrackingF f g = backtrackingF f' g := by
  intro n
  induction n with
  | zero =>
    intro g f f' hle hf hf'
    have hfull : NoEmpty g := numEmpty_eq_zero.mp (by omega)
    have hfe : find_empty g = none := by
      cases hfe : find_empty g with
      | none => rfl
      | some p => exact absurd (find_empty_some hfe) (hfull p.1 p.2)
    obtain ⟨fb, rfl⟩ : ∃ fb, f = fb + 1 := ⟨f - 1, by omega⟩
    obtain ⟨fb', rfl⟩ : ∃ fb', f' = fb' + 1 := ⟨f' - 1, by omega⟩
    unfold backtrackingF
    rw [hfe]
  | succ n ih =>
    intro g f f' hle hf hf'
    by_cases hn : numEmpty g ≤ n
    · exact ih g f f' hn hf hf'
    · have hpos : 0 < numEmpty g := by omega
      obtain ⟨p, hfe⟩ := find_empty_of_pos hpos
      obtain ⟨fb, rfl⟩ : ∃ fb, f = fb + 1 := ⟨f - 1, by omega⟩
      obtain ⟨fb', rfl⟩ : ∃ fb', f' = fb' + 1 := ⟨f' - 1, by omega⟩
      have h0 : g p.1 p.2 = 0 := find_empty_some hfe
      have key : ∀ nums : List Nat,
          tryNumsA (backtrackingF fb) p.1 p.2 nums g =
            tryNumsA (backtrackingF fb') p.1 p.2 nums g := by
        intro nums
        induction nums with
        | nil => rfl
        | cons num rest ihn =>
          unfold tryNumsA
          by_cases hp : is_possible g p.1 p.2 num = true
          · rw [if_pos hp, if_pos hp]
            have hlt : numEmpty (setCell g p.1 p.2 num) < numEmpty g :=
              numEmpty_setCell_lt h0 (is_possible_ne_zero hp)
            have heq : backtrackingF fb (setCell g p.1 p.2 num) =
                backtrackingF fb' (setCell g p.1 p.2 num) :=
              ih (setCell g p.1 p.2 num) fb fb' (by omega) (by omega) (by omega)
            rw [heq]
            cases hres : backtrackingF fb' (setCell g p.1 p.2 num) with
            | mk b g2 =>
              cases b with
              | true => rfl
              | false =>
                have hg2 : g2 = setCell g p.1 p.2 num := by
                  have := backtrackingF_restore fb' (setCell g p.1 p.2 num)
                    (by rw [hres])
                  rwa [hres] at this
                have hreset : setCell g2 p.1 p.2 0 = g := by
                  rw [hg2]; exact setCell_setCell_zero g p.1 p.2 num h0
                show tryNumsA (backtrackingF fb) p.1 p.2 rest (setCell g2 p.1 p.2 0) =
                  tryNumsA (backtrackingF fb') p.1 p.2 rest (setCell g2 p.1 p.2 0)
                rw [hreset]
                exact ihn
          · rw [if_neg hp, if_neg hp]
            exact ihn
      unfold backtrackingF
      rw [hfe]
      exact key nums19

/-! ## The deduction loop of `solve_puzzle` -/

theorem validEntries_setCell {g : Grid} {r c : Fin 9} {v : Nat}
    (hg : validEntries g) (hv : v ≤ 9) : validEntries (setCell g r c v) := by
  intro r' c'
  rw [setCell_apply]
  by_cases h : r' = r ∧ c' = c
  · rw [if_pos h]; exact hv
  · rw [if_neg h]; exact hg r' c'

theorem solveLoopF_preserves (P : Grid → Prop)
    (hwrite : ∀ (g : Grid) (r c : Fin 9) (v : Nat), 1 ≤ v → v ≤ 9 →
      is_possible g r c v = true → P g → P (setCell g r c v)) :
    ∀ (f : Nat) (g : Grid) (pos : Pos), P g → P (solveLoopF f g pos).1 := by
  intro f
  induction f with
  | zero => intro g pos hP; exact hP
  | succ f ih =>
    intro g pos hP
    unfold solveLoopF
    cases hs : row_col_square_single_algo g pos with
    | mk b1 rest =>
      obtain ⟨g1, pos1⟩ := rest
      cases b1 with
      | true =>
        obtain ⟨r, c, v, h0, h1, h9, hposs, hg1⟩ := single_algo_true hs
        exact ih g1 pos1 (hg1 ▸ hwrite g r c v h1 h9 hposs hP)
      | false =>
        obtain ⟨hg1, hfresh⟩ := single_algo_false hs
        subst hg1
        dsimp only
        cases ho : row_col_square_only_algo g1 pos1 with
        | mk b2 g2 =>
          cases b2 with
          | true =>
            obtain ⟨r, c, v, h0, h1, h9, hposs, hg2⟩ := only_algo_true hfresh ho
            exact ih g2 pos1 (hg2 ▸ hwrite g1 r c v h1 h9 hposs hP)
          | false =>
            have hg2 : g2 = g1 := only_algo_false ho
            exact hg2 ▸ hP

theorem solveLoopF_frame :
    ∀ (f : Nat) (g : Grid) (pos : Pos) (r' c' : Fin 9), g r' c' ≠ 0 →
      (solveLoopF f g pos).1 r' c' = g r' c' := by
  intro f
  induction f with
  | zero => intro g pos r' c' _; rfl
  | succ f ih =>
    intro g pos r' c' hnz
    unfold solveLoopF
    cases hs : row_col_square_single_algo g pos with
    | mk b1 rest =>
      obtain ⟨g1, pos1⟩ := rest
      cases b1 with
      | true =>
        obtain ⟨r, c, v, h0, h1, h9, hposs, hg1⟩ := single_algo_true hs
        have hne : ¬(r' = r ∧ c' = c) := by
          intro he
          rw [he.1, he.2] at hnz
          exact hnz h0
        have hg1v : g1 r' c' = g r' c' := by
          rw [hg1]; exact setCell_of_ne g r c v hne
        rw [ih g1 pos1 r' c' (by rw [hg1v]; exact hnz), hg1v]
      | false =>
        obtain ⟨hg1, hfresh⟩ := single_algo_false hs
        subst hg1
        dsimp only
        cases ho : row_col_square_only_algo g1 pos1 with
        | mk b2 g2 =>
          cases b2 with
          | true =>
            obtain ⟨r, c, v, h0, h1, h9, hposs, hg2⟩ := only_algo_true hfresh ho
            have hne : ¬(r' = r ∧ c' = c) := by
              intro he
              rw [he.1, he.2] at hnz
              exact hnz h0
            have hg2v : g2 r' c' = g1 r' c' := by
              rw [hg2]; exact setCell_of_ne g1 r c v hne
            rw [ih g2 pos1 r' c' (by rw [hg2v]; exact hnz), hg2v]
          | false =>
            show g2 r' c' = g1 r' c'
            rw [only_algo_false ho]

theorem solveLoopF_fuel_irrel :
    ∀ (n : Nat) (g : Grid) (pos : Pos) (f f' : Nat), numEmpty g ≤ n →
      numEmpty g < f → numEmpty g < f' →
      solveLoopF f g pos = solveLoopF f' g pos := by
  intro n
  induction n with
  | zero =>
    intro g pos f f' hle hf hf'
    have hfull : NoEmpty g := numEmpty_eq_zero.mp (by omega)
    obtain ⟨fb, rfl⟩ : ∃ fb, f = fb + 1 := ⟨f - 1, by omega⟩
    obtain ⟨fb', rfl⟩ : ∃ fb', f' = fb' + 1 := ⟨f' - 1, by omega⟩
    unfold solveLoopF
    cases hs : row_col_square_single_algo g pos with
    | mk b1 rest =>
      obtain ⟨g1, pos1⟩ := rest
      cases b1 with
      | true =>
        exfalso
        obtain ⟨r, c, v, h0, -⟩ := single_algo_true hs
        exact hfull r c h0
      | false =>
        obtain ⟨hg1, hfresh⟩ := single_algo_false hs
        subst hg1
        dsimp only
        rw [only_algo_full hfresh hfull]
  | succ n ih =>
    intro g pos f f' hle hf hf'
    by_cases hn : numEmpty g ≤ n
    · exact ih g pos f f' hn hf hf'
    · obtain ⟨fb, rfl⟩ : ∃ fb, f = fb + 1 := ⟨f - 1, by omega⟩
      obtain ⟨fb', rfl⟩ : ∃ fb', f' = fb' + 1 := ⟨f' - 1, by omega⟩
      unfold solveLoopF
      cases hs : row_col_square_single_algo g pos with
      | mk b1 rest =>
        obtain ⟨g1, pos1⟩ := rest
        cases b1 with
        | true =>
          obtain ⟨r, c, v, h0, h1, h9, hposs, hg1⟩ := single_algo_true hs
          have hlt : numEmpty g1 < numEmpty g := by
            rw [hg1]; exact numEmpty_setCell_lt h0 (by omega)
          exact ih g1 pos1 fb fb' (by omega) (by omega) (by omega)
        | false =>
          obtain ⟨hg1, hfresh⟩ := single_algo_false hs
          subst hg1
          dsimp only
          cases ho : row_col_square_only_algo g1 pos1 with
          | mk b2 g2 =>
            cases b2 with
            | true =>
              obtain ⟨r, c, v, h0, h1, h9, hposs, hg2⟩ := only_algo_true hfresh ho
              have hlt : numEmpty g2 < numEmpty g1 := by
                rw [hg2]; exact numEmpty_setCell_lt h0 (by omega)
              exact ih g2 pos1 fb fb' (by omega) (by omega) (by omega)
            | false => rfl

/-! ## `solve_puzzle`: success criterion, frame, preservation -/

theorem solve_true_iff (g : Grid) (pos : Pos) :
    (solve_puzzle g pos).1 = true ↔ NoEmpty (solve_puzzle g pos).2.1 := by
  unfold solve_puzzle
  cases hl : solveLoopF 82 g pos with
  | mk g1 pos1 =>
    dsimp only
    by_cases hc : check_puzzle_solved g1 = true
    · rw [if_pos hc]
      exact ⟨fun _ => (check_puzzle_solved_iff g1).mp hc, fun _ => rfl⟩
    · rw [if_neg hc]
      cases hb : backtracking g1 with
      | mk b g2 =>
        dsimp only
        cases b with
        | true =>
          constructor
          · intro _
            have hful := backtrackingF_full 82 g1
            rw [show backtrackingF 82 g1 = (true, g2) from hb] at hful
            exact hful rfl
          · intro _
            rfl
        | false =>
          constructor
          · intro h
            exact Bool.noConfusion h
          · intro hne
            exfalso
            have hres := backtrackingF_restore 82 g1
            rw [show backtrackingF 82 g1 = (false, g2) from hb] at hres
            have hg2 : g2 = g1 := hres rfl
            rw [hg2] at hne
            exact hc ((check_puzzle_solved_iff g1).mpr hne)

theorem solve_puzzle_frame (g : Grid) (pos : Pos) (r c : Fin 9)
    (h : g r c ≠ 0) : (solve_puzzle g pos).2.1 r c = g r c := by
  have hloop : (solveLoopF 82 g pos).1 r c = g r c :=
    solveLoopF_frame 82 g pos r c h
  unfold solve_puzzle
  cases hl : solveLoopF 82 g pos with
  | mk g1 pos1 =>
    rw [hl] at hloop
    have hloopv : g1 r c = g r c := hloop
    dsimp only
    by_cases hc : check_puzzle_solved g1 = true
    · rw [if_pos hc]
      exact hloopv
    · rw [if_neg hc]
      cases hb : backtracking g1 with
      | mk b g2 =>
        dsimp only
        have hbt := backtrackingF_frame 82 g1 r c (by rw [hloopv]; exact h)
        rw [show backtrackingF 82 g1 = (b, g2) from hb] at hbt
        have hbtv : g2 r c = g1 r c := hbt
        rw [hbtv, hloopv]

theorem solve_puzzle_preserves (P : Grid → Prop)
    (hwrite : ∀ (g : Grid) (r c : Fin 9) (v : Nat), 1 ≤ v → v ≤ 9 →
      is_possible g r c v = true → P g → P (setCell g r c v))
    (g : Grid) (pos : Pos) (hP : P g) : P (solve_puzzle g pos).2.1 := by
  have hloop : P (solveLoopF 82 g pos).1 :=
    solveLoopF_preserves P hwrite 82 g pos hP
  unfold solve_puzzle
  cases hl : solveLoopF 82 g pos with
  | mk g1 pos1 =>
    rw [hl] at hloop
    dsimp only
    by_cases hc : check_puzzle_solved g1 = true
    · rw [if_pos hc]
      exact hloop
    · rw [if_neg hc]
      cases hb : backtracking g1 with
      | mk b g2 =>
        dsimp only
        have hbt := backtrackingF_preserves P hwrite 82 g1 hloop
        rw [show backtrackingF 82 g1 = (b, g2) from hb] at hbt
        exact hbt

theorem solve_puzzle_on_full {g : Grid} (pos : Pos) (hfull : NoEmpty g) :
    (solve_puzzle g pos).1 = true ∧ (solve_puzzle g pos).2.1 = g := by
  have hloopg : (solveLoopF 82 g pos).1 = g :=
    funext fun r => funext fun c => solveLoopF_frame 82 g pos r c (hfull r c)
  unfold solve_puzzle
  cases hl : solveLoopF 82 g pos with
  | mk g1 pos1 =>
    rw [hl] at hloopg
    subst hloopg
    dsimp only
    rw [if_pos ((check_puzzle_solved_iff g1).mpr hfull)]
    exact ⟨rfl, rfl⟩

/-! ## A full consistent grid has every value exactly once per unit -/

theorem injective_unique_val {h : Fin 9 → Nat} (h0 : ∀ i, h i ≠ 0)
    (h9 : ∀ i, h i ≤ 9) (hinj : ∀ i j, h i = h j → i = j) {v : Nat}
    (hv1 : 1 ≤ v) (hv9 : v ≤ 9) : ∃! i, h i = v := by
  have hfinj : Function.Injective
      (fun i : Fin 9 => (⟨h i - 1, by have := h0 i; have := h9 i; omega⟩ : Fin 9)) := by
    intro i j hij
    apply hinj
    have hv : h i - 1 = h j - 1 := congrArg Fin.val hij
    have := h0 i
    have := h0 j
    omega
  obtain ⟨i, hi⟩ := Finite.surjective_of_injective hfinj ⟨v - 1, by omega⟩
  have hiv : h i = v := by
    have hval : h i - 1 = v - 1 := congrArg Fin.val hi
    have := h0 i
    omega
  exact ⟨i, hiv, fun j hj => hinj j i (hj.trans hiv.symm)⟩

theorem rowComplete_of {g : Grid} (hfull : NoEmpty g) (hval : validEntries g)
    (hrow : RowOk g) : RowComplete g := by
  intro r v hv1 hv9
  exact injective_unique_val (fun c => hfull r c) (fun c => hval r c)
    (fun c₁ c₂ he => hrow r c₁ c₂ (hfull r c₁) he) hv1 hv9

theorem colComplete_of {g : Grid} (hfull : NoEmpty g) (hval : validEntries g)
    (hcol : ColOk g) : ColComplete g := by
  intro c v hv1 hv9
  exact injective_unique_val (fun r => hfull r c) (fun r => hval r c)
    (fun r₁ r₂ he => hcol c r₁ r₂ (hfull r₁ c) he) hv1 hv9

theorem boxCell_div {b i : Fin 3} : (boxCell b i).val / 3 = b.val := by
  show (3 * b.val + i.val) / 3 = b.val
  have := i.isLt
  omega

theorem fin3div_pairK (p : Fin 3 × Fin 3) : fin3div (pairK p) = p.1 := by
  apply Fin.ext
  show (3 * p.1.val + p.2.val) / 3 = p.1.val
  have := p.2.isLt
  omega

theorem fin3mod_pairK (p : Fin 3 × Fin 3) : fin3mod (pairK p) = p.2 := by
  apply Fin.ext
  show (3 * p.1.val + p.2.val) % 3 = p.2.val
  have := p.2.isLt
  omega

theorem boxComplete_of {g : Grid} (hfull : NoEmpty g) (hval : validEntries g)
    (hbox : BoxOk g) : BoxComplete g := by
  intro b₁ b₂ v hv1 hv9
  have key : ∃! k : Fin 9, g (boxCell b₁ (fin3div k)) (boxCell b₂ (fin3mod k)) = v := by
    apply injective_unique_val
    · intro k
      exact hfull _ _
    · intro k
      exact hval _ _
    · intro k k' he
      have hsb1 : sameBox (boxCell b₁ (fin3div k)) (boxCell b₁ (fin3div k')) := by
        unfold sameBox
        rw [boxCell_div, boxCell_div]
      have hsb2 : sameBox (boxCell b₂ (fin3mod k)) (boxCell b₂ (fin3mod k')) := by
        unfold sameBox
        rw [boxCell_div, boxCell_div]
      obtain ⟨he1, he2⟩ := hbox _ _ _ _ hsb1 hsb2 (hfull _ _) he
      have e1 : 3 * b₁.val + k.val / 3 = 3 * b₁.val + k'.val / 3 :=
        congrArg Fin.val he1
      have e2 : 3 * b₂.val + k.val % 3 = 3 * b₂.val + k'.val % 3 :=
        congrArg Fin.val he2
      apply Fin.ext
      omega
    · exact hv1
    · exact hv9
  obtain ⟨k, hk, huniq⟩ := key
  refine ⟨(fin3div k, fin3mod k), hk, ?_⟩
  intro p hp
  have hkp : pairK p = k := by
    apply huniq (pairK p)
    show g (boxCell b₁ (fin3div (pairK p))) (boxCell b₂ (fin3mod (pairK p))) = v
    rw [fin3div_pairK, fin3mod_pairK]
    exact hp
  have hkv : 3 * p.1.val + p.2.val = k.val := congrArg Fin.val hkp
  apply Prod.ext
  · apply Fin.ext
    show p.1.val = k.val / 3
    have := p.2.isLt
    omega
  · apply Fin.ext
    show p.2.val = k.val % 3
    have := p.1.isLt
    have := p.2.isLt
    omega

theorem fullySolved_of {g : Grid} (hfull : NoEmpty g) (hval : validEntries g)
    (hcons : Consistent g) : FullySolved g :=
  ⟨hfull, rowComplete_of hfull hval hcons.1, colComplete_of hfull hval hcons.2.1,
    boxComplete_of hfull hval hcons.2.2⟩

/-! ## The claims -/

/-- C1: for every 9×9 input grid with entries in [0,9] whose non-zero cells
already satisfy row/column/box uniqueness, if `solve_puzzle` returns `True`
then on return the grid is fully filled and each of the 9 rows, columns and
non-overlapping 3×3 boxes contains each of the values 1–9 exactly once. -/
theorem C1_solve_puzzle_correct (g : Grid) (pos : Pos)
    (hval : validEntries g) (hcons : Consistent g)
    (htrue : (solve_puzzle g pos).1 = true) :
    FullySolved (solve_puzzle g pos).2.1 := by
  have hfull := (solve_true_iff g pos).mp htrue
  have hcons' : Consistent (solve_puzzle g pos).2.1 :=
    solve_puzzle_preserves Consistent
      (fun g r c v _ _ hp hP => consistent_setCell hP hp) g pos hcons
  have hval' : validEntries (solve_puzzle g pos).2.1 :=
    solve_puzzle_preserves validEntries
      (fun g r c v _ h9 _ hP => validEntries_setCell hP h9) g pos hval
  exact fullySolved_of hfull hval' hcons'

theorem C1_witness :
    validEntries gSolved ∧ Consistent gSolved ∧
      (solve_puzzle gSolved pos0).1 = true ∧
      FullySolved (solve_puzzle gSolved pos0).2.1 := by
  have h1 : validEntries gSolved := by decide
  have h2 : Consistent gSolved := by decide
  have h3 : (solve_puzzle gSolved pos0).1 = true :=
    (solve_puzzle_on_full pos0 (by decide)).1
  exact ⟨h1, h2, h3, C1_solve_puzzle_correct gSolved pos0 h1 h2 h3⟩

/-- C2 counterexample: the all-9s grid has two identical non-zero values in
row 0, yet `solve_puzzle` returns `True` (success), not `False`: the
completion check `check_puzzle_solved` tests fullness only, so a full grid
is accepted no matter how inconsistent it is. -/
theorem C2_counterexample :
    (0 : Fin 9) ≠ (1 : Fin 9) ∧ gNines 0 0 ≠ 0 ∧ gNines 0 0 = gNines 0 1 ∧
      (solve_puzzle gNines pos0).1 = true :=
  ⟨by decide, by decide, rfl, (solve_puzzle_on_full pos0 (by decide)).1⟩

/-- C2 amended: on a grid with two equal non-zero values in the same row,
`solve_puzzle` still terminates and returns a boolean (it cannot raise or
loop), and it returns `True` exactly when the grid it produced is completely
filled — in particular it may return success rather than failure. -/
theorem C2_duplicate_row_behaviour (g : Grid) (pos : Pos)
    (hdup : ∃ (r c₁ c₂ : Fin 9), c₁ ≠ c₂ ∧ g r c₁ ≠ 0 ∧ g r c₁ = g r c₂) :
    ((solve_puzzle g pos).1 = true ↔ NoEmpty (solve_puzzle g pos).2.1) ∧
      ((solve_puzzle g pos).1 = true ∨ (solve_puzzle g pos).1 = false) :=
  ⟨solve_true_iff g pos, Bool.eq_false_or_eq_true _⟩

theorem C2_witness :
    (∃ (r c₁ c₂ : Fin 9), c₁ ≠ c₂ ∧ gNines r c₁ ≠ 0 ∧ gNines r c₁ = gNines r c₂) ∧
      ((solve_puzzle gNines pos0).1 = true ↔
        NoEmpty (solve_puzzle gNines pos0).2.1) :=
  ⟨⟨0, 0, 1, by decide, by decide, rfl⟩,
    (C2_duplicate_row_behaviour gNines pos0 ⟨0, 0, 1, by decide, by decide, rfl⟩).1⟩

/-- C3: whenever `backtracking` returns `False`, the grid on return is
identical cell-for-cell to the grid at the moment of the call: every
tentative assignment of the failed search has been reverted to 0. -/
theorem C3_backtracking_restores (g : Grid) (hval : validEntries g)
    (hfalse : (backtracking g).1 = false) :
    ∀ r c, (backtracking g).2 r c = g r c := by
  intro r c
  exact congrFun (congrFun (backtrackingF_restore 82 g hfalse) r) c

theorem C3_witness :
    validEntries gBlocked ∧ (backtracking gBlocked).1 = false ∧
      (backtracking gBlocked).2 0 0 = gBlocked 0 0 :=
  ⟨by decide, by decide,
    C3_backtracking_restores gBlocked (by decide) (by decide) 0 0⟩

/-- C4: starting from a consistent grid, every individual cell write the
engine performs — the `is_possible`-guarded write itself, a write of the
naked-single rule, a write of the unique-position rule (run on fresh
candidates, as the controller guarantees), any write of backtracking, and
hence the whole of `solve_puzzle` — preserves row/column/box uniqueness of
the filled cells. -/
theorem C4_writes_preserve_consistency :
    (∀ (g : Grid) (r c : Fin 9) (v : Nat), Consistent g →
        is_possible g r c v = true → Consistent (setCell g r c v)) ∧
    (∀ (g : Grid) (pos : Pos) (g' : Grid) (pos' : Pos), Consistent g →
        row_col_square_single_algo g pos = (true, g', pos') → Consistent g') ∧
    (∀ (g : Grid) (pos : Pos) (g' : Grid), Consistent g → FreshPos g pos →
        row_col_square_only_algo g pos = (true, g') → Consistent g') ∧
    (∀ (f : Nat) (g : Grid), Consistent g → Consistent (backtrackingF f g).2) ∧
    (∀ (g : Grid) (pos : Pos), Consistent g →
        Consistent (solve_puzzle g pos).2.1) := by
  refine ⟨?_, ?_, ?_, ?_, ?_⟩
  · intro g r c v hc hp
    exact consistent_setCell hc hp
  · intro g pos g' pos' hc h
    obtain ⟨r, c, v, h0, h1, h9, hposs, hg'⟩ := single_algo_true h
    rw [hg']
    exact consistent_setCell hc hposs
  · intro g pos g' hc hfresh h
    obtain ⟨r, c, v, h0, h1, h9, hposs, hg'⟩ := only_algo_true hfresh h
    rw [hg']
    exact consistent_setCell hc hposs
  · intro f g hc
    exact backtrackingF_preserves Consistent
      (fun g r c v _ _ hp hP => consistent_setCell hP hp) f g hc
  · intro g pos hc
    exact solve_puzzle_preserves Consistent
      (fun g r c v _ _ hp hP => consistent_setCell hP hp) g pos hc

theorem C4_witness :
    Consistent gEmpty ∧ is_possible gEmpty 0 0 1 = true ∧
      Consistent (setCell gEmpty 0 0 1) :=
  ⟨by decide, by decide,
    C4_writes_preserve_consistency.1 gEmpty 0 0 1 (by decide) (by decide)⟩

/-- C5: `is_possible(grid, r, c, v)` returns `True` iff the target cell is
empty and `v` occurs nowhere in row `r`, column `c`, or the 3×3 box with
origin `(r/3*3, c/3*3)`; in particular it returns `False` whenever the
target cell is non-zero.  (It is a pure function of its arguments in this
embedding, as in the source, which only reads the grid.) -/
theorem C5_is_possible_spec (g : Grid) (x y : Fin 9) (num : Nat) :
    (is_possible g x y num = true ↔
      (g x y = 0 ∧ (∀ c, g x c ≠ num) ∧ (∀ r, g r y ≠ num) ∧
        ∀ (i j : Fin 3), g (boxIdx x i) (boxIdx y j) ≠ num)) ∧
    (g x y ≠ 0 → is_possible g x y num = false) := by
  refine ⟨is_possible_iff g x y num, ?_⟩
  intro hnz
  cases h : is_possible g x y num with
  | false => rfl
  | true => exact absurd ((is_possible_iff g x y num).mp h).1 hnz

theorem C5_witness :
    gBlocked 0 0 ≠ 0 ∧ is_possible gBlocked 0 0 1 = false :=
  ⟨by decide, (C5_is_possible_spec gBlocked 0 0 1).2 (by decide)⟩

/-- C6: whenever the naked-single rule returns `False` it has left the grid
unchanged and has overwritten `puzzle_pos` so that filled cells carry the
empty list and each empty cell carries exactly the values 1–9 that
`is_possible` allows on the current grid — the freshness contract the
controller relies on before running the unique-position rule. -/
theorem C6_single_algo_false_fresh (g : Grid) (pos : Pos)
    (hfalse : (row_col_square_single_algo g pos).1 = false) :
    (row_col_square_single_algo g pos).2.1 = g ∧
      FreshPos g (row_col_square_single_algo g pos).2.2 ∧
      ∀ (r c : Fin 9) (v : Nat), v ∈ candidatesList g r c ↔
        (1 ≤ v ∧ v ≤ 9) ∧ is_possible g r c v = true := by
  have h : row_col_square_single_algo g pos =
      (false, (row_col_square_single_algo g pos).2.1,
        (row_col_square_single_algo g pos).2.2) := by
    rw [← hfalse]
  obtain ⟨hg, hfresh⟩ := single_algo_false h
  exact ⟨hg, hfresh, fun r c v => mem_candidatesList⟩

theorem C6_witness :
    (row_col_square_single_algo gEmpty pos0).1 = false ∧
      (row_col_square_single_algo gEmpty pos0).2.1 = gEmpty ∧
      FreshPos gEmpty (row_col_square_single_algo gEmpty pos0).2.2 := by
  have h := C6_single_algo_false_fresh gEmpty pos0 (by decide)
  exact ⟨by decide, h.1, h.2.1⟩

/-- C7: the unique-position rule commits exactly the first qualifying
`(unit, value)` pair of `trialList`, which enumerates all nine rows, then
all nine columns, then the nine 3×3 boxes, units in ascending index order
and values 1–9 ascending within each unit; a pair qualifies exactly when
its position list (the cells of the unit whose candidate entry contains the
value) has exactly one element; the value is written to that unique cell
and the scan stops, and `False` is returned only when no pair qualifies. -/
theorem C7_only_algo_scan_order (g : Grid) (pos : Pos) :
    (∀ i : Nat, i < (trialList pos).length →
      ((trialList pos).getD i ([], 0)).1.length = 1 →
      (∀ j : Nat, j < i → ((trialList pos).getD j ([], 0)).1.length ≠ 1) →
      row_col_square_only_algo g pos =
        (true, setCell g (((trialList pos).getD i ([], 0)).1.headD (0, 0)).1
          (((trialList pos).getD i ([], 0)).1.headD (0, 0)).2
          ((trialList pos).getD i ([], 0)).2)) ∧
    ((∀ t ∈ trialList pos, t.1.length ≠ 1) →
      row_col_square_only_algo g pos = (false, g)) ∧
    (∀ t ∈ trialList pos, (∀ p ∈ t.1, t.2 ∈ pos p.1 p.2) ∧ 1 ≤ t.2 ∧ t.2 ≤ 9) :=
  ⟨fun i hi h1 hf => onlyAux_at_first (trialList pos) i hi h1 hf,
    fun h => onlyAux_none (trialList pos) h,
    fun t ht => trialList_mem_spec ht⟩

theorem C7_witness :
    row_col_square_only_algo gEmpty pos5 = (true, setCell gEmpty 0 0 5) := by
  have h := (C7_only_algo_scan_order gEmpty pos5).1 4 (by decide) (by decide)
    (by decide)
  rw [h]
  rfl

/-- C8: the solver terminates.  Each deduction-loop iteration that continues
fills one previously-empty cell (the two rules strictly decrease the number
of empty cells on success), a grid has at most 81 empty cells, and both the
deduction loop and the backtracking recursion stabilise at fuel (= recursion
depth) exceeding the number of empty cells — in particular fuel 82 computes
the result of the unbounded recursion. -/
theorem C8_termination_bounds :
    (∀ (g : Grid) (pos : Pos) (g' : Grid) (pos' : Pos),
        row_col_square_single_algo g pos = (true, g', pos') →
        numEmpty g' < numEmpty g) ∧
    (∀ (g : Grid) (pos : Pos) (g' : Grid), FreshPos g pos →
        row_col_square_only_algo g pos = (true, g') →
        numEmpty g' < numEmpty g) ∧
    (∀ g : Grid, numEmpty g ≤ 81) ∧
    (∀ (g : Grid) (pos : Pos) (f : Nat), numEmpty g < f →
        solveLoopF f g pos = solveLoopF 82 g pos) ∧
    (∀ (g : Grid) (f : Nat), numEmpty g < f →
        backtrackingF f g = backtracking g) := by
  refine ⟨?_, ?_, numEmpty_le, ?_, ?_⟩
  · intro g pos g' pos' h
    obtain ⟨r, c, v, h0, h1, h9, hposs, hg'⟩ := single_algo_true h
    rw [hg']
    exact numEmpty_setCell_lt h0 (by omega)
  · intro g pos g' hfresh h
    obtain ⟨r, c, v, h0, h1, h9, hposs, hg'⟩ := only_algo_true hfresh h
    rw [hg']
    exact numEmpty_setCell_lt h0 (by omega)
  · intro g pos f hf
    exact solveLoopF_fuel_irrel (numEmpty g) g pos f 82 le_rfl hf
      (by have := numEmpty_le g; omega)
  · intro g f hf
    exact backtrackingF_fuel_irrel (numEmpty g) g f 82 le_rfl hf
      (by have := numEmpty_le g; omega)

theorem C8_witness :
    numEmpty gSolved < 83 ∧ backtrackingF 83 gSolved = backtracking gSolved ∧
      numEmpty gEmpty ≤ 81 :=
  ⟨by decide, C8_termination_bounds.2.2.2.2 gSolved 83 (by decide),
    C8_termination_bounds.2.2.1 gEmpty⟩

/-- C9: invoking `solve_puzzle` on an already fully filled grid satisfying
row/column/box uniqueness returns `True` and mutates no cell: the
naked-single pass finds every cell filled, the unique-position pass finds
every candidate entry empty, and the completion check succeeds at once. -/
theorem C9_idempotent_on_solved (g : Grid) (pos : Pos)
    (hfull : NoEmpty g) (hcons : Consistent g) :
    (solve_puzzle g pos).1 = true ∧ (solve_puzzle g pos).2.1 = g :=
  solve_puzzle_on_full pos hfull

theorem C9_witness :
    NoEmpty gSolved ∧ Consistent gSolved ∧
      (solve_puzzle gSolved pos0).1 = true ∧
      (solve_puzzle gSolved pos0).2.1 = gSolved := by
  have h := C9_idempotent_on_solved gSolved pos0 (by decide) (by decide)
  exact ⟨by decide, by decide, h.1, h.2⟩

/-- C10: every cell that is non-zero when `solve_puzzle` is called holds the
same value when it returns, whatever the outcome: the naked-single rule, the
unique-position rule (on fresh candidates, as the controller runs it) and
backtracking write only to cells whose value is 0, and backtracking resets
to 0 only cells it filled itself. -/
theorem C10_nonzero_cells_preserved :
    (∀ (g : Grid) (pos : Pos), validEntries g → ∀ (r c : Fin 9), g r c ≠ 0 →
        (solve_puzzle g pos).2.1 r c = g r c) ∧
    (∀ (g : Grid) (pos : Pos) (b : Bool) (g' : Grid) (pos' : Pos),
        row_col_square_single_algo g pos = (b, g', pos') →
        ∀ (r c : Fin 9), g r c ≠ 0 → g' r c = g r c) ∧
    (∀ (g : Grid) (pos : Pos) (b : Bool) (g' : Grid), FreshPos g pos →
        row_col_square_only_algo g pos = (b, g') →
        ∀ (r c : Fin 9), g r c ≠ 0 → g' r c = g r c) ∧
    (∀ (f : Nat) (g : Grid) (r c : Fin 9), g r c ≠ 0 →
        (backtrackingF f g).2 r c = g r c) := by
  refine ⟨?_, ?_, ?_, backtrackingF_frame⟩
  · intro g pos _ r c hnz
    exact solve_puzzle_frame g pos r c hnz
  · intro g pos b g' pos' h r c hnz
    cases b with
    | true =>
      obtain ⟨r', c', v, h0, h1, h9, hposs, hg'⟩ := single_algo_true h
      rw [hg']
      apply setCell_of_ne
      intro he
      rw [he.1, he.2] at hnz
      exact hnz h0
    | false =>
      obtain ⟨hg', -⟩ := single_algo_false h
      rw [hg']
  · intro g pos b g' hfresh h r c hnz
    cases b with
    | true =>
      obtain ⟨r', c', v, h0, h1, h9, hposs, hg'⟩ := only_algo_true hfresh h
      rw [hg']
      apply setCell_of_ne
      intro he
      rw [he.1, he.2] at hnz
      exact hnz h0
    | false =>
      rw [only_algo_false h]

theorem C10_witness :
    validEntries gBlocked ∧ gBlocked 0 0 ≠ 0 ∧
      (solve_puzzle gBlocked pos0).2.1 0 0 = gBlocked 0 0 :=
  ⟨by decide, by decide,
    C10_nonzero_cells_preserved.1 gBlocked pos0 (by decide) 0 0 (by decide)⟩

end PySudoku
